import Mathlib

/-!
Shallow embedding of src/Functions/Gjenstand_1/n_byte_int.h.

Modelling conventions:

* An unsigned C++ integer of bit width w is a Nat below 2 ^ w; a signed one is an
  Int in the interval from -(2 ^ (w - 1)) up to 2 ^ (w - 1) excluded.
* A byte (std::byte) is a Nat below 256; the member data_ of
  N_byte_int<Int, Num_bytes, Byte_order> is a list of Num_bytes bytes kept in
  physical storage order.
* Width parameters: size = sizeof(Int) in bytes, so the native width is w = 8 * size
  bits, and pw is the bit width at which C++ evaluates arithmetic on Int after
  integral promotion (pw = max(8 * size, bit width of int), hence 8 * size ≤ pw;
  for types of rank at least that of int, pw = 8 * size).
* Arithmetic that C++ defines everywhere (unsigned wrap-around, C++20 integral
  conversions) is modelled by explicit modular arithmetic; undefined behaviour is
  modelled as `none`.  The header uses std::endian and <bit>, so it is compiled as
  C++20, where out-of-range integral conversions to signed types are defined
  (reduction modulo 2 ^ w).  Two sources of undefined behaviour remain: the signed
  `* -1` multiplications in the codec overflow at the extreme inputs, and the
  big-endian-host branch of little_endian_byte_iterator is mis-built (next bullet).
* The host byte order is an explicit model parameter (the static_assert rejects
  every other host).  On a little-endian host little_endian_byte_iterator returns
  the first-byte pointer of the scalar: a valid least-significant-first traversal
  of its bytes.  On a big-endian host it returns std::make_reverse_iterator applied
  to that same first-byte pointer (not to the one-past-the-end pointer), and a
  reverse iterator dereferences the position before its base: the i-th element of
  the traversal is the byte at address &scalar - 1 - i, outside the object.  Every
  copy through that traversal is therefore an out-of-bounds access (undefined
  behaviour): the reads in assign_value and the writes in get_value.  The model
  returns `none` for any use of that traversal on a big-endian host (the degenerate
  Num_bytes = 0 instantiation, whose copy touches nothing, is mapped to `none` as
  well; no claim concerns it).  The buffer-side traversal data_begin_little_endian
  is built correctly from rbegin/rend and is modelled by leView on every host.
-/

namespace NByteInt

/-- C++ conversion of an integer value to an unsigned integer type of bit width
`w`: reduction modulo 2 ^ w (defined behaviour in every C++ standard). -/
def ucast (w : Nat) (v : Int) : Nat := (v % ((2 : Int) ^ w)).toNat

/-- C++20 conversion of an unsigned pattern to the signed integer type of bit
width `w`: reduction modulo 2 ^ w into the signed range. -/
def scast (w : Nat) (p : Nat) : Int :=
  if p % 2 ^ w < 2 ^ (w - 1) then ((p % 2 ^ w : Nat) : Int)
  else ((p % 2 ^ w : Nat) : Int) - 2 ^ w

/-- The byte order parameter std::endian of N_byte_int (mixed-endian values are
rejected by a static_assert in the source). -/
inductive Endian where
  | little : Endian
  | big : Endian
deriving DecidableEq

/-- n_byte_int_detail::to_twos_complement, for a signed type of width `w` whose
promoted arithmetic width is `pw`.  On a negative value the source computes
`~static_cast<Uint>(value * -1) + 1`; the multiplication `value * -1` is signed
arithmetic and overflows (undefined behaviour, modelled as `none`) when its
mathematical value exceeds the promoted maximum 2 ^ (pw - 1) - 1.  In the
defined cases `~x + 1` equals (2 ^ w - x) % 2 ^ w whether the complement is
taken at width w (no promotion) or at width pw followed by the conversion to
the Uint return type. -/
def to_twos_complement (w pw : Nat) (value : Int) : Option Nat :=
  if 0 ≤ value then
    some (ucast w value)
  else if ((2 : Int) ^ (pw - 1)) - 1 < value * (-1) then
    none
  else
    some ((2 ^ w - ucast w (value * (-1))) % 2 ^ w)

/-- n_byte_int_detail::from_twos_complement, for an unsigned type of width `w`
whose promoted arithmetic width is `pw`.  The source tests the top bit with
`value & (Uint{1} << (w - 1))`, and on a set top bit computes
`static_cast<Sint>(~value + 1) * -1`; `~value + 1` equals
(2 ^ w - value % 2 ^ w) % 2 ^ w at either arithmetic width, the conversion to
Sint is `scast`, and the final `* -1` is signed arithmetic that overflows
(undefined behaviour, `none`) when its value exceeds 2 ^ (pw - 1) - 1.  The
conversion of the result to the Sint return type is again `scast`. -/
def from_twos_complement (w pw : Nat) (value : Nat) : Option Int :=
  if value &&& 2 ^ (w - 1) = 0 then
    some (scast w value)
  else if ((2 : Int) ^ (pw - 1)) - 1 <
      scast w ((2 ^ w - value % 2 ^ w) % 2 ^ w) * (-1) then
    none
  else
    some (scast w (ucast w (scast w ((2 ^ w - value % 2 ^ w) % 2 ^ w) * (-1))))

/-- The first `n` bytes, least significant first, of the byte representation of
the unsigned pattern `u` (the view little_endian_byte_iterator provides). -/
def leBytes : Nat → Nat → List Nat
  | 0, _ => []
  | n + 1, u => u % 256 :: leBytes n (u / 256)

/-- Recompose a least-significant-first byte list into its unsigned pattern. -/
def fromLeBytes : List Nat → Nat
  | [] => 0
  | b :: bs => b + 256 * fromLeBytes bs

/-- N_byte_int::data_begin_little_endian / data_end_little_endian: the traversal
of the physical buffer in least-significant-first order (forward for a
little-endian instance, reversed for a big-endian one).  The same function maps
a least-significant-first byte list back to the physical buffer it is stored
as, since the reversal is an involution. -/
def leView : Endian → List Nat → List Nat
  | .little, data => data
  | .big, data => data.reverse

/-- N_byte_int::data_msb: the most significant stored byte, i.e. the last byte
of the least-significant-first traversal. -/
def data_msb (order : Endian) (data : List Nat) : Nat :=
  (leView order data).getLastD 0

/-- The immediately invoked lambda at the start of N_byte_int::assign_value:
encode through to_twos_complement when Int is signed, otherwise convert
directly to the unsigned type. -/
def encodeInt (signed : Bool) (w pw : Nat) (value : Int) : Option Nat :=
  if signed then to_twos_complement w pw value else some (ucast w value)

/-- Reading `n` bytes through n_byte_int_detail::little_endian_byte_iterator
(the const overload) from a scalar of `size` bytes holding the pattern `u`: on
a little-endian host the iterator is the first-byte pointer and the traversal
yields the `n` least-significant bytes; on a big-endian host the iterator is
std::make_reverse_iterator of that same first-byte pointer, so its i-th
dereference reads the byte at address &scalar - 1 - i, below the object:
out-of-bounds undefined behaviour, `none`. -/
def le_iter_reads (host : Endian) (size n u : Nat) : Option (List Nat) :=
  match host with
  | .little => some ((leBytes size u).take n)
  | .big => none

/-- Writing the `n` bytes `src` through
n_byte_int_detail::little_endian_byte_iterator (the mutable overload) into a
scalar of `size` bytes initialized to `u0`: on a little-endian host the low `n`
bytes are overwritten least-significant first and the new scalar value results;
on a big-endian host the mis-built reverse iterator makes every write land
below the object: out-of-bounds undefined behaviour, `none`. -/
def le_iter_writes (host : Endian) (size u0 n : Nat) (src : List Nat) : Option Nat :=
  match host with
  | .little => some (fromLeBytes (src.take n ++ (leBytes size u0).drop n))
  | .big => none

/-- N_byte_int::assign_value on a host of byte order `host`: encode `value`
into the unsigned pattern `uvalue`, then
`copy_n(little_endian_byte_iterator(uvalue), data_.size(), data_begin_little_endian())`:
read the first `N` least-significant bytes of the pattern (undefined on a
big-endian host, see le_iter_reads) and write them over the buffer traversal,
the remaining slots (none, when the old buffer has length N) keeping their old
bytes.  `old` is the prior physical buffer contents. -/
def assign_value (host : Endian) (signed : Bool) (size pw N : Nat)
    (order : Endian) (old : List Nat) (value : Int) : Option (List Nat) :=
  (encodeInt signed (8 * size) pw value).bind fun uvalue =>
    (le_iter_reads host size N uvalue).map fun src =>
      leView order (src ++ (leView order old).drop N)

/-- N_byte_int::get_value on a host of byte order `host`: start from a zero
unsigned carrier, pre-fill it with all ones when Int is signed,
Num_bytes < sizeof(Int) and bit 7 of the most significant stored byte is set,
then
`copy_n(data_begin_little_endian(), data_.size(), little_endian_byte_iterator(uvalue))`
overwrites its low `N` bytes with the stored bytes (undefined on a big-endian
host, see le_iter_writes); finally decode through from_twos_complement when Int
is signed, else convert directly back. -/
def get_value (host : Endian) (signed : Bool) (size pw N : Nat) (order : Endian)
    (data : List Nat) : Option Int :=
  let uvalue0 : Nat :=
    if signed ∧ N < size then
      if data_msb order data &&& 128 ≠ 0 then 2 ^ (8 * size) - 1 else 0
    else 0
  (le_iter_writes host size uvalue0 N (leView order data)).bind fun uvalue =>
    if signed then from_twos_complement (8 * size) pw uvalue
    else some ((uvalue : Nat) : Int)

/-- N_byte_int::N_byte_int(Int value = {}): the constructor forwards to
assign_value, which overwrites every one of the N bytes of the
default-initialized (indeterminate) buffer, so the model seeds the buffer with
zeros; independence from the seed is the overwrite theorem below. -/
def mk (host : Endian) (signed : Bool) (size pw N : Nat) (order : Endian)
    (value : Int) : Option (List Nat) :=
  assign_value host signed size pw N order (List.replicate N 0) value

/-- N_byte_int::value(): a const observer; when the read has a defined result
it returns that result together with the buffer after the call (which the
method does not touch).  On a big-endian host the internal copy writes out of
bounds (undefined behaviour): no defined result or post-state. -/
def value (host : Endian) (signed : Bool) (size pw N : Nat) (order : Endian)
    (data : List Nat) : Option (Int × List Nat) :=
  (get_value host signed size pw N order data).map fun r => (r, data)

/-- N_byte_int::operator Int(): a const observer, same shape as value(). -/
def op_Int (host : Endian) (signed : Bool) (size pw N : Nat) (order : Endian)
    (data : List Nat) : Option (Int × List Nat) :=
  (get_value host signed size pw N order data).map fun r => (r, data)

/-- N_byte_int::bytes(): a const observer returning the raw physical buffer,
and the buffer after the call (unchanged). -/
def bytes (data : List Nat) : List Nat × List Nat :=
  (data, data)

/-- Spec-side definition (section 8, round-trip): `v` fits in N bytes, i.e.
-(2 ^ (8 N - 1)) ≤ v < 2 ^ (8 N - 1) for a signed Int and 0 ≤ v < 2 ^ (8 N)
for an unsigned one. -/
def inRange (signed : Bool) (N : Nat) (v : Int) : Prop :=
  match signed with
  | true => -((2 : Int) ^ (8 * N - 1)) ≤ v ∧ v < (2 : Int) ^ (8 * N - 1)
  | false => 0 ≤ v ∧ v < (2 : Int) ^ (8 * N)

instance instDecidableInRange (signed : Bool) (N : Nat) (v : Int) :
    Decidable (inRange signed N v) :=
  match signed with
  | true => inferInstanceAs (Decidable (_ ∧ _))
  | false => inferInstanceAs (Decidable (_ ∧ _))

/-- Spec-side definition (section 8, truncation determinism): reduce the native
twos-complement/unsigned pattern of `v` modulo 2 ^ (8 N), then decode those low
8 N bits under the same signed/unsigned twos-complement rule used for N-byte
storage. -/
def truncSpec (signed : Bool) (N : Nat) (v : Int) : Int :=
  match signed with
  | true =>
    if (v % ((2 : Int) ^ (8 * N))).toNat < 2 ^ (8 * N - 1) then
      ((v % ((2 : Int) ^ (8 * N))).toNat : Int)
    else
      ((v % ((2 : Int) ^ (8 * N))).toNat : Int) - 2 ^ (8 * N)
  | false => ((v % ((2 : Int) ^ (8 * N))).toNat : Int)

/-! ### Facts about the byte decomposition and the buffer traversal -/

theorem leBytes_length (n u : Nat) : (leBytes n u).length = n := by
  induction n generalizing u with
  | zero => rfl
  | succ n ih => simp [leBytes, ih]

theorem fromLeBytes_leBytes (n u : Nat) :
    fromLeBytes (leBytes n u) = u % 256 ^ n := by
  induction n generalizing u with
  | zero => simp [leBytes, fromLeBytes, Nat.mod_one]
  | succ n ih =>
    rw [leBytes, fromLeBytes, ih, pow_succ, mul_comm ((256 : Nat) ^ n) 256,
      Nat.mod_mul]

theorem leBytes_take (N n u : Nat) (h : N ≤ n) :
    (leBytes n u).take N = leBytes N u := by
  induction N generalizing n u with
  | zero => rfl
  | succ N ih =>
    cases n with
    | zero => omega
    | succ n =>
      rw [leBytes, List.take_succ_cons, ih n (u / 256) (by omega), leBytes]

theorem leBytes_drop (N n u : Nat) :
    (leBytes n u).drop N = leBytes (n - N) (u / 256 ^ N) := by
  induction N generalizing n u with
  | zero => simp
  | succ N ih =>
    cases n with
    | zero => simp [leBytes]
    | succ n =>
      rw [leBytes, List.drop_succ_cons, ih n (u / 256),
        Nat.div_div_eq_div_mul, ← pow_succ']
      congr 1
      omega

theorem leBytes_zero (n : Nat) : leBytes n 0 = List.replicate n 0 := by
  induction n with
  | zero => rfl
  | succ n ih => simp [leBytes, ih, List.replicate_succ]

theorem fromLeBytes_replicate_zero (n : Nat) :
    fromLeBytes (List.replicate n 0) = 0 := by
  induction n with
  | zero => rfl
  | succ n ih => simp [List.replicate_succ, fromLeBytes, ih]

theorem fromLeBytes_append (xs ys : List Nat) :
    fromLeBytes (xs ++ ys) = fromLeBytes xs + 256 ^ xs.length * fromLeBytes ys := by
  induction xs with
  | nil => simp [fromLeBytes]
  | cons b xs ih =>
    simp only [List.cons_append, List.append_eq, fromLeBytes, ih,
      List.length_cons, pow_succ]
    ring

theorem leView_leView (order : Endian) (l : List Nat) :
    leView order (leView order l) = l := by
  cases order <;> simp [leView]

theorem leView_length (order : Endian) (l : List Nat) :
    (leView order l).length = l.length := by
  cases order <;> simp [leView]

theorem leView_replicate (order : Endian) (n a : Nat) :
    leView order (List.replicate n a) = List.replicate n a := by
  cases order <;> simp [leView, List.reverse_replicate]

theorem drop_replicate {α : Type} (m n : Nat) (a : α) :
    (List.replicate n a).drop m = List.replicate (n - m) a := by
  induction m generalizing n with
  | zero => simp
  | succ m ih =>
    cases n with
    | zero => simp
    | succ n =>
      rw [List.replicate_succ, List.drop_succ_cons, ih]
      congr 1
      omega

theorem leBytes_getLastD (n u d : Nat) :
    (leBytes (n + 1) u).getLastD d = u / 256 ^ n % 256 := by
  induction n generalizing u d with
  | zero => simp [leBytes]
  | succ n ih =>
    rw [show leBytes (n + 2) u = u % 256 :: leBytes (n + 1) (u / 256) from rfl,
      List.getLastD_cons, ih, Nat.div_div_eq_div_mul, ← pow_succ']

theorem pow256 (n : Nat) : (256 : Nat) ^ n = 2 ^ (8 * n) := by
  rw [show (256 : Nat) = 2 ^ 8 from rfl, ← pow_mul]

theorem div_pow_sub_one (a b : Nat) : (2 ^ (a + b) - 1) / 2 ^ a = 2 ^ b - 1 := by
  induction a with
  | zero => simp
  | succ a ih =>
    have h1 : 2 ^ (a + 1 + b) - 1 = 2 * (2 ^ (a + b) - 1) + 1 := by
      have hle : (1 : Nat) ≤ 2 ^ (a + b) := Nat.one_le_two_pow
      rw [show a + 1 + b = (a + b) + 1 by omega, pow_succ]
      omega
    rw [h1, pow_succ', ← Nat.div_div_eq_div_mul]
    have h2 : (2 * (2 ^ (a + b) - 1) + 1) / 2 = 2 ^ (a + b) - 1 := by omega
    rw [h2, ih]

/-! ### Facts about the C++ integral conversions and the twos-complement codec -/

theorem cast_two_pow (w : Nat) : (((2 : Nat) ^ w : Nat) : Int) = (2 : Int) ^ w := by
  push_cast
  ring

theorem ucast_cast (w : Nat) (v : Int) :
    ((ucast w v : Nat) : Int) = v % (2 : Int) ^ w := by
  unfold ucast
  exact Int.toNat_of_nonneg (Int.emod_nonneg v (by positivity))

theorem ucast_lt (w : Nat) (v : Int) : ucast w v < 2 ^ w := by
  have h1 : v % (2 : Int) ^ w < (2 : Int) ^ w :=
    Int.emod_lt_of_pos v (by positivity)
  have h2 := ucast_cast w v
  have h3 := cast_two_pow w
  omega

theorem ucast_mod (a b : Nat) (h : a ≤ b) (v : Int) :
    ucast b v % 2 ^ a = ucast a v := by
  have h1 : v % (2 : Int) ^ b % (2 : Int) ^ a = v % (2 : Int) ^ a :=
    Int.emod_emod_of_dvd v (pow_dvd_pow 2 h)
  have h2 : ((ucast b v % 2 ^ a : Nat) : Int) = ((ucast a v : Nat) : Int) := by
    push_cast [ucast_cast]
    exact h1
  exact_mod_cast h2

theorem ucast_of_nonneg {w : Nat} {v : Int} (h0 : 0 ≤ v) (h : v < (2 : Int) ^ w) :
    ((ucast w v : Nat) : Int) = v := by
  rw [ucast_cast, Int.emod_eq_of_lt h0 h]

theorem ucast_of_neg {w : Nat} {v : Int} (h0 : v < 0) (h : -((2 : Int) ^ w) ≤ v) :
    ((ucast w v : Nat) : Int) = v + (2 : Int) ^ w := by
  rw [ucast_cast]
  have h1 : v % (2 : Int) ^ w = (v + (2 : Int) ^ w) % (2 : Int) ^ w := by
    conv_rhs => rw [show v + (2 : Int) ^ w = v + (2 : Int) ^ w * 1 by ring]
    rw [Int.add_mul_emod_self_left]
  have hpos : (0 : Int) < (2 : Int) ^ w := by positivity
  rw [h1, Int.emod_eq_of_lt (by omega) (by omega)]

theorem scast_eq_of_lt {w p : Nat} (h : p < 2 ^ w) :
    scast w p = if p < 2 ^ (w - 1) then (p : Int) else (p : Int) - (2 : Int) ^ w := by
  unfold scast
  rw [Nat.mod_eq_of_lt h]

theorem scast_mod_self (w p : Nat) : scast w (p % 2 ^ w) = scast w p := by
  unfold scast
  rw [Nat.mod_mod_of_dvd p dvd_rfl]

theorem scast_roundtrip {w : Nat} {v : Int} (hw : 0 < w)
    (hlo : -((2 : Int) ^ (w - 1)) ≤ v) (hhi : v < (2 : Int) ^ (w - 1)) :
    scast w (ucast w v) = v := by
  have hw1 : w - 1 + 1 = w := by omega
  have hsplit : (2 : Int) ^ w = 2 ^ (w - 1) * 2 := by rw [← pow_succ, hw1]
  have hc1 := cast_two_pow (w - 1)
  rw [scast_eq_of_lt (ucast_lt w v)]
  rcases le_or_lt 0 v with h0 | h0
  · have hu : ((ucast w v : Nat) : Int) = v := ucast_of_nonneg h0 (by omega)
    rw [if_pos (by omega), hu]
  · have hu : ((ucast w v : Nat) : Int) = v + (2 : Int) ^ w :=
      ucast_of_neg h0 (by omega)
    rw [if_neg (by omega), hu]
    ring_nf

theorem ucast_eq_half_iff {w : Nat} {v : Int} (hw : 0 < w)
    (hlo : -((2 : Int) ^ (w - 1)) ≤ v) (hhi : v < (2 : Int) ^ (w - 1)) :
    ucast w v = 2 ^ (w - 1) ↔ v = -((2 : Int) ^ (w - 1)) := by
  have hw1 : w - 1 + 1 = w := by omega
  have hsplit : (2 : Int) ^ w = 2 ^ (w - 1) * 2 := by rw [← pow_succ, hw1]
  have hc1 := cast_two_pow (w - 1)
  rcases le_or_lt 0 v with h0 | h0
  · have hu : ((ucast w v : Nat) : Int) = v := ucast_of_nonneg h0 (by omega)
    omega
  · have hu : ((ucast w v : Nat) : Int) = v + (2 : Int) ^ w :=
      ucast_of_neg h0 (by omega)
    omega

theorem twos_complement_formula (w : Nat) (v : Int) :
    (2 ^ w - ucast w (v * (-1))) % 2 ^ w = ucast w v := by
  have hm : v * (-1) = -v := by ring
  rw [hm]
  have hxle : ucast w (-v) ≤ 2 ^ w := le_of_lt (ucast_lt w (-v))
  have key : (((2 ^ w - ucast w (-v)) % 2 ^ w : Nat) : Int) = v % (2 : Int) ^ w := by
    push_cast [Nat.cast_sub hxle, ucast_cast]
    have h1 : (-v) % ((2 : Int) ^ w) % ((2 : Int) ^ w) = (-v) % ((2 : Int) ^ w) :=
      Int.emod_emod_of_dvd _ dvd_rfl
    have h2 : Int.ModEq ((2 : Int) ^ w) ((-v) % (2 : Int) ^ w) (-v) := h1
    have h3 := Int.ModEq.sub (Int.ModEq.refl ((2 : Int) ^ w)) h2
    have h4 : ((2 : Int) ^ w - (-v) % (2 : Int) ^ w) % (2 : Int) ^ w =
        ((2 : Int) ^ w - (-v)) % (2 : Int) ^ w := h3
    rw [h4, show (2 : Int) ^ w - (-v) = v + (2 : Int) ^ w * 1 by ring,
      Int.add_mul_emod_self_left]
  have hrhs := ucast_cast w v
  exact Nat.cast_injective (key.trans hrhs.symm)

theorem to_twos_complement_eq {w pw : Nat} {v : Int}
    (hpw : -((2 : Int) ^ (pw - 1)) < v) :
    to_twos_complement w pw v = some (ucast w v) := by
  unfold to_twos_complement
  rcases le_or_lt 0 v with h0 | h0
  · rw [if_pos h0]
  · rw [if_neg (by omega), if_neg (by omega), twos_complement_formula]

theorem and_two_pow_eq_zero_iff {m k : Nat} (hm : m < 2 ^ (k + 1)) :
    (m &&& 2 ^ k = 0) ↔ m < 2 ^ k := by
  rw [Nat.and_two_pow]
  have hpos : 0 < (2 : Nat) ^ k := pow_pos (by norm_num) k
  have hdiv : m / 2 ^ k < 2 := by
    rw [Nat.div_lt_iff_lt_mul hpos, mul_comm, ← pow_succ]
    exact hm
  have htb : m.testBit k = decide (m / 2 ^ k % 2 = 1) := Nat.testBit_to_div_mod
  cases h : m.testBit k with
  | false =>
    rw [h] at htb
    have h1 : ¬ (m / 2 ^ k % 2 = 1) := by
      intro hcon
      simp [hcon] at htb
    have hlt : m < 2 ^ k := by
      by_contra hcon
      have h2 : (1 : Nat) ≤ m / 2 ^ k := (Nat.one_le_div_iff hpos).mpr (by omega)
      have h3 : m / 2 ^ k = 1 := by omega
      rw [h3] at h1
      simp at h1
    simp only [Bool.toNat_false, zero_mul]
    simpa using hlt
  | true =>
    rw [h] at htb
    have h1 : m / 2 ^ k % 2 = 1 := by
      by_contra hcon
      simp [hcon] at htb
    have hge : 2 ^ k ≤ m := by
      by_contra hcon
      rw [Nat.div_eq_of_lt (by omega)] at h1
      simp at h1
    simp only [Bool.toNat_true, one_mul]
    constructor
    · intro hcon
      omega
    · intro hcon
      omega

theorem from_twos_complement_eq {w pw : Nat} (hw : 0 < w) {p : Nat}
    (hp : p < 2 ^ w) (hne : w < pw ∨ p ≠ 2 ^ (w - 1)) :
    from_twos_complement w pw p = some (scast w p) := by
  have hw1 : w - 1 + 1 = w := by omega
  have hcond : (p &&& 2 ^ (w - 1) = 0) ↔ p < 2 ^ (w - 1) :=
    and_two_pow_eq_zero_iff (by rw [hw1]; exact hp)
  have hsplit : (2 : Nat) ^ w = 2 ^ (w - 1) * 2 := by rw [← pow_succ, hw1]
  have hpos1 : 0 < (2 : Nat) ^ (w - 1) := pow_pos (by norm_num) (w - 1)
  unfold from_twos_complement
  by_cases hcc : p < 2 ^ (w - 1)
  · rw [if_pos (hcond.mpr hcc)]
  · rw [if_neg (fun hh => hcc (hcond.mp hh))]
    have hmod : p % 2 ^ w = p := Nat.mod_eq_of_lt hp
    have hq : (2 ^ w - p % 2 ^ w) % 2 ^ w = 2 ^ w - p := by
      rw [hmod]
      exact Nat.mod_eq_of_lt (by omega)
    rw [hq]
    have hcw := cast_two_pow w
    have hcw1 := cast_two_pow (w - 1)
    have hpwpos : (0 : Int) < (2 : Int) ^ (pw - 1) := by positivity
    by_cases hb : 2 ^ w - p = 2 ^ (w - 1)
    · have hpeq : p = 2 ^ (w - 1) := by omega
      have hwpw : w < pw := by
        rcases hne with hne | hne
        · exact hne
        · exact absurd hpeq hne
      have hs : scast w (2 ^ w - p) =
          ((2 ^ (w - 1) : Nat) : Int) - (2 : Int) ^ w := by
        rw [hb, scast_eq_of_lt (by omega), if_neg (lt_irrefl _)]
      rw [hs]
      have hlt2 : ((2 ^ (w - 1) : Nat) : Int) < (2 : Int) ^ (pw - 1) := by
        rw [cast_two_pow (w - 1)]
        exact_mod_cast Nat.pow_lt_pow_right (by norm_num) (by omega)
      rw [if_neg (by omega)]
      congr 1
      have hs1 : (((2 ^ (w - 1) : Nat) : Int) - (2 : Int) ^ w) * (-1) =
          ((2 ^ (w - 1) : Nat) : Int) := by
        have hInt : (2 : Int) ^ w = ((2 ^ (w - 1) : Nat) : Int) * 2 := by omega
        rw [hInt]
        ring
      rw [hs1]
      have hhalf : ucast w (((2 : Nat) ^ (w - 1) : Nat) : Int) = 2 ^ (w - 1) := by
        have h5 : ((ucast w (((2 : Nat) ^ (w - 1) : Nat) : Int) : Nat) : Int) =
            (((2 : Nat) ^ (w - 1) : Nat) : Int) :=
          ucast_of_nonneg (by positivity) (by omega)
        exact_mod_cast h5
      rw [hhalf, hpeq]
    · have hqlt1 : 2 ^ w - p < 2 ^ (w - 1) := by omega
      have hs : scast w (2 ^ w - p) = ((2 ^ w - p : Nat) : Int) := by
        rw [scast_eq_of_lt (by omega), if_pos hqlt1]
      rw [hs]
      have hq0 : 0 < 2 ^ w - p := by omega
      rw [if_neg (by omega)]
      congr 1
      have hu : ucast w (((2 ^ w - p : Nat) : Int) * (-1)) = p := by
        have h1 : ((ucast w (((2 ^ w - p : Nat) : Int) * (-1)) : Nat) : Int) =
            ((2 ^ w - p : Nat) : Int) * (-1) + (2 : Int) ^ w :=
          ucast_of_neg (by omega) (by omega)
        omega
      rw [hu]

/-! ### The assignment and read-back paths -/

theorem encodeInt_eq_some {signed : Bool} {w pw : Nat} {v : Int} {u : Nat}
    (h : encodeInt signed w pw v = some u) : u = ucast w v := by
  cases signed with
  | false =>
    simp [encodeInt] at h
    exact h.symm
  | true =>
    simp only [encodeInt, if_pos] at h
    unfold to_twos_complement at h
    rcases le_or_lt 0 v with h0 | h0
    · rw [if_pos h0] at h
      exact (Option.some.inj h).symm
    · rw [if_neg (by omega)] at h
      by_cases hg : ((2 : Int) ^ (pw - 1)) - 1 < v * (-1)
      · rw [if_pos hg] at h
        exact absurd h (by simp)
      · rw [if_neg hg] at h
        have h1 := Option.some.inj h
        rw [← h1]
        exact twos_complement_formula w v

theorem encodeInt_defined {signed : Bool} {w pw : Nat} {v : Int}
    (h : -((2 : Int) ^ (pw - 1)) < v) :
    encodeInt signed w pw v = some (ucast w v) := by
  cases signed with
  | false => rfl
  | true =>
    show to_twos_complement w pw v = some (ucast w v)
    exact to_twos_complement_eq h

theorem mk_eq (signed : Bool) (size pw N : Nat) (order : Endian) (v : Int)
    (hNs : N ≤ size) :
    mk .little signed size pw N order v =
      (encodeInt signed (8 * size) pw v).map fun u => leView order (leBytes N u) := by
  unfold mk assign_value
  cases h : encodeInt signed (8 * size) pw v with
  | none => rfl
  | some u =>
    simp only [Option.some_bind, le_iter_reads, Option.map_some']
    congr 1
    rw [leBytes_take N size u hNs, leView_replicate, drop_replicate,
      Nat.sub_self, List.replicate_zero, List.append_nil]

theorem fromLeBytes_carrier (size N u u0 : Nat) :
    fromLeBytes (leBytes N u ++ (leBytes size u0).drop N) =
      u % 2 ^ (8 * N) +
        2 ^ (8 * N) * (u0 / 2 ^ (8 * N) % 2 ^ (8 * (size - N))) := by
  rw [fromLeBytes_append, leBytes_length, fromLeBytes_leBytes, leBytes_drop,
    fromLeBytes_leBytes, pow256 N, pow256 (size - N)]

theorem carrier_zero (size N u : Nat) :
    fromLeBytes (leBytes N u ++ (leBytes size 0).drop N) = u % 2 ^ (8 * N) := by
  rw [fromLeBytes_carrier, Nat.zero_div, Nat.zero_mod, mul_zero, add_zero]

theorem carrier_ones (size N u : Nat) (hNs : N ≤ size) :
    fromLeBytes (leBytes N u ++ (leBytes size (2 ^ (8 * size) - 1)).drop N) =
      u % 2 ^ (8 * N) + (2 ^ (8 * size) - 2 ^ (8 * N)) := by
  rw [fromLeBytes_carrier]
  congr 1
  have hsz : 8 * size = 8 * N + 8 * (size - N) := by omega
  rw [hsz, div_pow_sub_one]
  have hx : (0 : Nat) < 2 ^ (8 * (size - N)) := pow_pos (by norm_num) _
  rw [Nat.mod_eq_of_lt (by omega)]
  have hmul : 2 ^ (8 * N) * (2 ^ (8 * (size - N)) - 1) =
      2 ^ (8 * N) * 2 ^ (8 * (size - N)) - 2 ^ (8 * N) := by
    rw [← Nat.pred_eq_sub_one, Nat.mul_pred]
  rw [hmul, ← pow_add]

theorem msb_leBytes (N u : Nat) (hN : 0 < N) :
    ((leBytes N u).getLastD 0 &&& 128 ≠ 0) ↔
      2 ^ (8 * N - 1) ≤ u % 2 ^ (8 * N) := by
  obtain ⟨n, rfl⟩ : ∃ n, N = n + 1 := ⟨N - 1, by omega⟩
  rw [leBytes_getLastD]
  have hm256 : u / 256 ^ n % 256 < 256 := Nat.mod_lt _ (by norm_num)
  have hiff : ((u / 256 ^ n % 256) &&& 128 = 0) ↔ u / 256 ^ n % 256 < 128 := by
    have h1 := and_two_pow_eq_zero_iff (m := u / 256 ^ n % 256) (k := 7)
      (by norm_num [hm256])
    simpa using h1
  have hkey : u % 256 ^ (n + 1) / 256 ^ n = u / 256 ^ n % 256 := by
    rw [pow_succ]
    exact Nat.mod_mul_right_div_self u (256 ^ n) 256
  have hppos : (0 : Nat) < 256 ^ n := pow_pos (by norm_num) n
  have heq : (128 : Nat) * 256 ^ n = 2 ^ (8 * (n + 1) - 1) := by
    rw [pow256, show (128 : Nat) = 2 ^ 7 from rfl, ← pow_add]
    congr 1
    omega
  constructor
  · intro hne
    have hge : 128 ≤ u / 256 ^ n % 256 := by
      by_contra hcon
      exact hne (hiff.mpr (by omega))
    rw [← hkey] at hge
    have h2 := (Nat.le_div_iff_mul_le hppos).mp hge
    rw [← pow256 (n + 1)]
    omega
  · intro hge hzero
    have hlt : u / 256 ^ n % 256 < 128 := hiff.mp hzero
    rw [← hkey] at hlt
    have h2 : ¬ (128 * 256 ^ n ≤ u % 256 ^ (n + 1)) := by
      intro hcon
      have := (Nat.le_div_iff_mul_le hppos).mpr hcon
      omega
    rw [← pow256 (n + 1)] at hge
    omega

theorem get_value_true_eq (size pw N : Nat) (order : Endian) (data : List Nat) :
    get_value .little true size pw N order data =
      from_twos_complement (8 * size) pw
        (fromLeBytes ((leView order data).take N ++
          (leBytes size
            (if N < size ∧ data_msb order data &&& 128 ≠ 0
              then 2 ^ (8 * size) - 1 else 0)).drop N)) := by
  by_cases h1 : N < size
  · by_cases h2 : data_msb order data &&& 128 ≠ 0
    · simp [get_value, le_iter_writes, h1, h2]
    · simp [get_value, le_iter_writes, h1, h2]
  · simp [get_value, le_iter_writes, h1]

theorem get_value_false_eq (size pw N : Nat) (order : Endian) (data : List Nat) :
    get_value .little false size pw N order data =
      some ((fromLeBytes ((leView order data).take N ++
        (leBytes size 0).drop N) : Nat) : Int) := by
  simp [get_value, le_iter_writes]

theorem get_value_unsigned (size pw N : Nat) (order : Endian) (u : Nat) :
    get_value .little false size pw N order (leView order (leBytes N u)) =
      some ((u % 2 ^ (8 * N) : Nat) : Int) := by
  rw [get_value_false_eq, leView_leView, leBytes_take N N u le_rfl, carrier_zero]

theorem get_value_signed (size pw N : Nat) (order : Endian) (u : Nat)
    (hN : 0 < N) (hNs : N ≤ size) (hpw : 8 * size ≤ pw)
    (hu : u < 2 ^ (8 * size))
    (hdef : N = size → 8 * size = pw → u ≠ 2 ^ (8 * size - 1)) :
    get_value .little true size pw N order (leView order (leBytes N u)) =
      some (scast (8 * N) u) := by
  have hmsb : data_msb order (leView order (leBytes N u)) =
      (leBytes N u).getLastD 0 := by
    unfold data_msb
    rw [leView_leView]
  rw [get_value_true_eq, leView_leView, leBytes_take N N u le_rfl, hmsb]
  have hlowlt : u % 2 ^ (8 * N) < 2 ^ (8 * N) :=
    Nat.mod_lt _ (pow_pos (by norm_num) _)
  have hp1 : 2 ^ (8 * N) ≤ 2 ^ (8 * size) :=
    Nat.pow_le_pow_right (by norm_num) (by omega)
  have hp2 : 2 ^ (8 * N - 1) * 2 = 2 ^ (8 * N) := by
    rw [← pow_succ]
    congr 1
    omega
  have hp3 : 2 ^ (8 * size - 1) * 2 = 2 ^ (8 * size) := by
    rw [← pow_succ]
    congr 1
    omega
  rcases Nat.lt_or_ge N size with hNlt | hNge
  · have hp4 : 2 ^ (8 * N - 1) < 2 ^ (8 * size - 1) :=
      Nat.pow_lt_pow_right (by norm_num) (by omega)
    by_cases hbit : (leBytes N u).getLastD 0 &&& 128 ≠ 0
    · rw [if_pos ⟨hNlt, hbit⟩, carrier_ones size N u hNs]
      have hge : 2 ^ (8 * N - 1) ≤ u % 2 ^ (8 * N) := (msb_leBytes N u hN).mp hbit
      have hclt : u % 2 ^ (8 * N) + (2 ^ (8 * size) - 2 ^ (8 * N)) < 2 ^ (8 * size) := by
        omega
      have hcgt : 2 ^ (8 * size - 1) < u % 2 ^ (8 * N) + (2 ^ (8 * size) - 2 ^ (8 * N)) := by
        omega
      rw [from_twos_complement_eq (by omega) hclt (Or.inr (by omega))]
      congr 1
      rw [scast_eq_of_lt hclt, if_neg (by omega), ← scast_mod_self (8 * N) u,
        scast_eq_of_lt hlowlt, if_neg (by omega)]
      have hcN := cast_two_pow (8 * N)
      have hcs := cast_two_pow (8 * size)
      omega
    · rw [if_neg (fun h => hbit h.2), carrier_zero]
      have hlt128 : u % 2 ^ (8 * N) < 2 ^ (8 * N - 1) := by
        by_contra hcon
        exact hbit ((msb_leBytes N u hN).mpr (by omega))
      rw [from_twos_complement_eq (by omega) (by omega) (Or.inr (by omega))]
      congr 1
      rw [scast_eq_of_lt (show u % 2 ^ (8 * N) < 2 ^ (8 * size) by omega),
        if_pos (by omega), ← scast_mod_self (8 * N) u,
        scast_eq_of_lt hlowlt, if_pos hlt128]
  · have hNeq : N = size := by omega
    subst hNeq
    rw [if_neg (fun h => absurd h.1 (by omega)), carrier_zero,
      Nat.mod_eq_of_lt hu]
    have hor : 8 * N < pw ∨ u ≠ 2 ^ (8 * N - 1) := by
      rcases Nat.lt_or_ge (8 * N) pw with hlt | hge2
      · exact Or.inl hlt
      · exact Or.inr (hdef rfl (by omega))
    rw [from_twos_complement_eq (by omega) hu hor]

theorem truncSpec_signed_eq (N : Nat) (v : Int) :
    truncSpec true N v = scast (8 * N) (ucast (8 * N) v) := by
  have hlt := ucast_lt (8 * N) v
  rw [scast_eq_of_lt hlt]
  rfl

theorem truncSpec_unsigned_eq (N : Nat) (v : Int) :
    truncSpec false N v = ((ucast (8 * N) v : Nat) : Int) := rfl

/-- The central read-back computation on a little-endian host: construct from
`v` (any `v` in the native range, with the single codec undefined-behaviour
combination excluded) and read back; the result is the spec-side
truncate-then-decode value. -/
theorem read_back (signed : Bool) (size pw N : Nat) (order : Endian) (v : Int)
    (hN : 0 < N) (hNs : N ≤ size) (hpw : 8 * size ≤ pw)
    (hnat : inRange signed size v)
    (hub : ¬(signed = true ∧ 8 * size = pw ∧ v = -((2 : Int) ^ (8 * size - 1)))) :
    (mk .little signed size pw N order v).bind
        (get_value .little signed size pw N order) =
      some (truncSpec signed N v) := by
  have hc1 := cast_two_pow (8 * size - 1)
  have hcpw := cast_two_pow (pw - 1)
  cases signed with
  | false =>
    obtain ⟨h0, hlt⟩ : 0 ≤ v ∧ v < (2 : Int) ^ (8 * size) := hnat
    have hdefined : -((2 : Int) ^ (pw - 1)) < v := by
      have hpwpos : (0 : Int) < (2 : Int) ^ (pw - 1) := by positivity
      omega
    rw [mk_eq false size pw N order v hNs, encodeInt_defined hdefined]
    simp only [Option.map_some', Option.some_bind]
    rw [get_value_unsigned size pw N order _,
      ucast_mod (8 * N) (8 * size) (by omega) v, truncSpec_unsigned_eq]
  | true =>
    obtain ⟨hlo, hhi⟩ :
        -((2 : Int) ^ (8 * size - 1)) ≤ v ∧ v < (2 : Int) ^ (8 * size - 1) := hnat
    have hw : 0 < 8 * size := by
      rcases Nat.eq_zero_or_pos size with h | h
      · subst h
        simp at hhi
        omega
      · omega
    have hdefined : -((2 : Int) ^ (pw - 1)) < v := by
      rcases Nat.lt_or_ge (8 * size) pw with hlt | hge
      · have h2 : ((2 : Nat) ^ (8 * size - 1)) < 2 ^ (pw - 1) :=
          Nat.pow_lt_pow_right (by norm_num) (by omega)
        omega
      · have heq : 8 * size = pw := by omega
        have hneq : v ≠ -((2 : Int) ^ (8 * size - 1)) := fun hcon =>
          hub ⟨rfl, heq, hcon⟩
        have h3 : (2 : Int) ^ (pw - 1) = 2 ^ (8 * size - 1) := by rw [heq]
        omega
    rw [mk_eq true size pw N order v hNs, encodeInt_defined hdefined]
    simp only [Option.map_some', Option.some_bind]
    have hu := ucast_lt (8 * size) v
    have hdef2 : N = size → 8 * size = pw →
        ucast (8 * size) v ≠ 2 ^ (8 * size - 1) := by
      intro _ hpweq hcon
      exact hub ⟨rfl, hpweq, (ucast_eq_half_iff hw hlo hhi).mp hcon⟩
    rw [get_value_signed size pw N order _ hN hNs hpw hu hdef2]
    congr 1
    rw [truncSpec_signed_eq, ← scast_mod_self (8 * N) (ucast (8 * size) v),
      ucast_mod (8 * N) (8 * size) (by omega) v]

theorem inRange_mono {signed : Bool} {N M : Nat} {v : Int} (h : N ≤ M)
    (hr : inRange signed N v) : inRange signed M v := by
  cases signed with
  | false =>
    obtain ⟨h0, hlt⟩ := hr
    have hle : ((2 : Nat) ^ (8 * N)) ≤ 2 ^ (8 * M) :=
      Nat.pow_le_pow_right (by norm_num) (by omega)
    have hcN := cast_two_pow (8 * N)
    have hcM := cast_two_pow (8 * M)
    exact ⟨h0, by omega⟩
  | true =>
    obtain ⟨hlo, hhi⟩ := hr
    have hle : ((2 : Nat) ^ (8 * N - 1)) ≤ 2 ^ (8 * M - 1) :=
      Nat.pow_le_pow_right (by norm_num) (by omega)
    have hcN := cast_two_pow (8 * N - 1)
    have hcM := cast_two_pow (8 * M - 1)
    exact ⟨by omega, by omega⟩

theorem truncSpec_of_inRange {signed : Bool} {N : Nat} {v : Int} (hN : 0 < N)
    (hr : inRange signed N v) : truncSpec signed N v = v := by
  cases signed with
  | false =>
    obtain ⟨h0, hlt⟩ := hr
    rw [truncSpec_unsigned_eq]
    exact ucast_of_nonneg h0 hlt
  | true =>
    obtain ⟨hlo, hhi⟩ := hr
    rw [truncSpec_signed_eq]
    exact scast_roundtrip (by omega) hlo hhi

theorem getLastD_leBytes_zero (N : Nat) : (leBytes N 0).getLastD 0 = 0 := by
  cases N with
  | zero => rfl
  | succ n =>
    rw [leBytes_getLastD]
    simp

theorem from_twos_complement_zero (w pw : Nat) :
    from_twos_complement w pw 0 = some 0 := by
  unfold from_twos_complement
  rw [if_pos (by simp)]
  have h1 : (0 : Nat) % 2 ^ w = 0 := Nat.zero_mod _
  have h2 : (0 : Nat) < 2 ^ (w - 1) := pow_pos (by norm_num) _
  unfold scast
  rw [h1, if_pos h2]
  simp

/-! ### The claims -/

/-- C1: the claim states that the codec functions are exact inverses over the
full native width.  For an Int of rank at least that of int (w = pw, shown here
at w = pw = 32, i.e. int32_t with a 32-bit int), the code is undefined at the
boundary: from_twos_complement computes `static_cast<Sint>(~value + 1) * -1`
on the pattern 2 ^ 31, and to_twos_complement computes `value * -1` on the
value -2 ^ 31; both multiplications overflow the signed range (undefined
behaviour, `none` in the model), so neither composition is the identity
there.  The intended inverse laws hold everywhere else and the code comments
claim full portability, so this is a bug in the code. -/
theorem claim_C1 :
    from_twos_complement 32 32 (2 ^ 31) = none ∧
      to_twos_complement 32 32 (-(2 ^ 31)) = none := by
  decide

/-- C2: round-trip for in-range values, as amended: on a little-endian host,
for every in-range `v` except the single codec undefined-behaviour combination
(N = sizeof(Int), 8 N = pw, v = -2 ^ (8 N - 1)), constructing from `v` and
reading back yields exactly `v`.  On a big-endian host construction and
read-back go through the mis-built reverse iterator (out-of-bounds undefined
behaviour) and the round trip has no defined result for any `v`. -/
theorem claim_C2 (signed : Bool) (size pw N : Nat) (order : Endian) (v : Int)
    (hN : 0 < N) (hNs : N ≤ size) (hpw : 8 * size ≤ pw)
    (hr : inRange signed N v)
    (hub : ¬(signed = true ∧ 8 * size = pw ∧ v = -((2 : Int) ^ (8 * size - 1)))) :
    (mk .little signed size pw N order v).bind
        (get_value .little signed size pw N order) =
      some v := by
  rw [read_back signed size pw N order v hN hNs hpw (inRange_mono hNs hr) hub,
    truncSpec_of_inRange hN hr]

/-- C2 counterexample: first conjunct: for Int = int32_t (w = pw = 32) and
N = 4 on a little-endian host, the in-range value -2 ^ 31 is encoded through
`value * -1`, which overflows: no defined result, so the round trip does not
yield the value back.  Second conjunct: on a big-endian host even the harmless
in-range value 1 has no defined round trip, because the scalar byte traversal
reads and writes out of bounds. -/
theorem claim_C2_counterexample :
    (¬ ((mk .little true 4 32 4 .little (-(2 ^ 31))).bind
        (get_value .little true 4 32 4 .little) = some (-(2 ^ 31)))) ∧
      (¬ ((mk .big true 4 32 3 .little 1).bind
        (get_value .big true 4 32 3 .little) = some 1)) := by
  decide

theorem claim_C2_witness :
    (mk .little true 4 32 3 .big (-2)).bind
        (get_value .little true 4 32 3 .big) = some (-2) :=
  claim_C2 true 4 32 3 .big (-2) (by decide) (by decide) (by decide) (by decide)
    (by decide)

/-- C3: truncation determinism, as amended: on a little-endian host, for every
native-range `v` except the codec undefined-behaviour combination
(8 sizeof(Int) = pw and v = -2 ^ (8 sizeof(Int) - 1), where encoding
overflows), and in particular for every out-of-range `v` apart from that one,
the read-back equals `v` reduced modulo 2 ^ (8 N) and reinterpreted under the
same signed/unsigned rule (truncSpec).  On a big-endian host the scalar byte
traversal is out of bounds and there is no defined read-back for any `v`. -/
theorem claim_C3 (signed : Bool) (size pw N : Nat) (order : Endian) (v : Int)
    (hN : 0 < N) (hNs : N ≤ size) (hpw : 8 * size ≤ pw)
    (_hout : ¬ inRange signed N v) (hnat : inRange signed size v)
    (hub : ¬(signed = true ∧ 8 * size = pw ∧ v = -((2 : Int) ^ (8 * size - 1)))) :
    (mk .little signed size pw N order v).bind
        (get_value .little signed size pw N order) =
      some (truncSpec signed N v) :=
  read_back signed size pw N order v hN hNs hpw hnat hub

/-- C3 counterexample: first conjunct: for Int = int32_t (w = pw = 32) and
N = 2 on a little-endian host, the out-of-range value -2 ^ 31 should read back
as its pattern reduced modulo 2 ^ 16 and decoded (which is 0), but the encoding
step `value * -1` overflows at -2 ^ 31, so there is no defined result at all.
Second conjunct: on a big-endian host the out-of-range value 70000 at N = 2
does not read back as its truncation either, because the byte traversal is out
of bounds. -/
theorem claim_C3_counterexample :
    (¬ ((mk .little true 4 32 2 .little (-(2 ^ 31))).bind
        (get_value .little true 4 32 2 .little) =
      some (truncSpec true 2 (-(2 ^ 31))))) ∧
      (¬ ((mk .big false 4 32 2 .little 70000).bind
        (get_value .big false 4 32 2 .little) =
      some (truncSpec false 2 70000))) := by
  decide

theorem claim_C3_witness :
    (mk .little false 4 32 2 .little 70000).bind
        (get_value .little false 4 32 2 .little) =
      some 4464 :=
  (claim_C3 false 4 32 2 .little 70000 (by decide) (by decide) (by decide)
    (by decide) (by decide) (by decide)).trans (by decide)

/-- C4: the claim states that every operation is total with no undefined
result for any input including the extremes of Int.  For Int = int32_t with a
32-bit int (w = pw = 32), constructing or assigning the extreme value -2 ^ 31
evaluates `value * -1`, which overflows the signed range: undefined behaviour,
i.e. no defined result.  The spec is the evident intent (it prescribes unsigned
arithmetic only) and the code comments claim portable C++ compliance, so this
is a bug in the code.  Shown on a little-endian host, which isolates the
encoding overflow from the separate out-of-bounds traversal bug of big-endian
hosts. -/
theorem claim_C4 :
    mk .little true 4 32 4 .little (-(2 ^ 31)) = none ∧
      assign_value .little true 4 32 4 .little [1, 2, 3, 4] (-(2 ^ 31)) = none := by
  decide

/-- The little-endian-host byte layout: the buffer of a constructed instance
holds exactly N bytes; the little-byte-order instance stores the N
least-significant-first bytes of the truncated pattern (leBytes is
least-significant first by construction), and the big-byte-order instance
stores exactly the reversed, most-significant-first sequence. -/
theorem bytes_layout (signed : Bool) (size pw N : Nat) (v : Int)
    (data : List Nat) (hNs : N ≤ size)
    (hl : mk .little signed size pw N .little v = some data) :
    data.length = N ∧ data = leBytes N (ucast (8 * size) v) ∧
      mk .little signed size pw N .big v =
        some ((leBytes N (ucast (8 * size) v)).reverse) := by
  rw [mk_eq signed size pw N .little v hNs] at hl
  cases h : encodeInt signed (8 * size) pw v with
  | none =>
    rw [h] at hl
    exact absurd hl (by simp)
  | some u =>
    rw [h] at hl
    simp only [Option.map_some'] at hl
    have hu : u = ucast (8 * size) v := encodeInt_eq_some h
    have hdata : data = leBytes N u := (Option.some.inj hl).symm
    refine ⟨?_, ?_, ?_⟩
    · rw [hdata, leBytes_length]
    · rw [hdata, hu]
    · rw [mk_eq signed size pw N .big v hNs, h, hu]
      simp only [Option.map_some']
      rfl

/-- C5: the claim asserts that the stored layout is produced independently of
the host byte order, but the big-endian-host branch of
little_endian_byte_iterator applies std::make_reverse_iterator to the
first-byte pointer, so construction copies the bytes below the scalar:
out-of-bounds undefined behaviour, no defined byte array at all (first
conjunct).  On a little-endian host the buffer is, as intended, the N
least-significant-first bytes of the pattern for little byte order and their
most-significant-first reversal for big byte order (remaining conjuncts; the
general little-endian-host layout is the bytes_layout theorem above). -/
theorem claim_C5 :
    mk .big false 4 32 3 .little 1 = none ∧
      mk .little false 4 32 3 .little 1 = some [1, 0, 0] ∧
      mk .little false 4 32 3 .big 1 = some [0, 0, 1] := by
  decide

/-- C6: as amended: on a little-endian host, for every Int, N and value, the
buffer of the big-byte-order instance is exactly the reverse of the buffer of
the little-byte-order instance built from the same value (and when the
construction has no defined result, neither has).  On a big-endian host
neither instance has a defined byte array. -/
theorem claim_C6 (signed : Bool) (size pw N : Nat) (v : Int) :
    mk .little signed size pw N .big v =
      (mk .little signed size pw N .little v).map List.reverse := by
  unfold mk assign_value
  cases h : encodeInt signed (8 * size) pw v with
  | none => rfl
  | some u =>
    simp [le_iter_reads, leView, List.reverse_replicate]

/-- C6 counterexample: on a big-endian host, neither the big- nor the
little-byte-order construction yields a defined byte array at all (the scalar
traversal reads out of bounds), so the claimed relation between the two
returned byte arrays does not hold there: there are no such arrays. -/
theorem claim_C6_counterexample :
    mk .big true 4 32 2 .big 5 = none ∧ mk .big true 4 32 2 .little 5 = none := by
  decide

/-- C7: as amended: on a little-endian host, for signed Int with
N < sizeof(Int), the read-back of a constructed instance equals the
twos-complement interpretation at width 8 N of the N stored bytes alone (so it
does not depend on which native value produced them), and its sign is negative
exactly when bit 7 of the most significant stored byte is set (the bit that
triggers the all-ones pre-fill).  On a big-endian host the read-back writes
through an out-of-bounds iterator and has no defined result. -/
theorem claim_C7 (size pw N : Nat) (order : Endian) (v : Int) (data : List Nat)
    (hN : 0 < N) (hlt : N < size) (hpw : 8 * size ≤ pw)
    (h : mk .little true size pw N order v = some data) :
    get_value .little true size pw N order data =
      some (scast (8 * N) (fromLeBytes (leView order data))) ∧
      (scast (8 * N) (fromLeBytes (leView order data)) < 0 ↔
        data_msb order data &&& 128 ≠ 0) := by
  have hNs : N ≤ size := by omega
  rw [mk_eq true size pw N order v hNs] at h
  cases henc : encodeInt true (8 * size) pw v with
  | none =>
    rw [henc] at h
    exact absurd h (by simp)
  | some u =>
    rw [henc] at h
    simp only [Option.map_some'] at h
    have hdata : data = leView order (leBytes N u) := (Option.some.inj h).symm
    have hu : u = ucast (8 * size) v := encodeInt_eq_some henc
    have huvlt : u < 2 ^ (8 * size) := by
      rw [hu]
      exact ucast_lt _ _
    have hle : fromLeBytes (leView order data) = u % 2 ^ (8 * N) := by
      rw [hdata, leView_leView, fromLeBytes_leBytes, pow256]
    have hmsb : data_msb order data = (leBytes N u).getLastD 0 := by
      rw [hdata]
      unfold data_msb
      rw [leView_leView]
    have hmlt : u % 2 ^ (8 * N) < 2 ^ (8 * N) :=
      Nat.mod_lt _ (pow_pos (by norm_num) _)
    have hcN := cast_two_pow (8 * N)
    constructor
    · rw [hle, scast_mod_self, hdata,
        get_value_signed size pw N order u hN hNs hpw huvlt
          (fun hNeq _ => absurd hNeq (by omega))]
    · rw [hle, scast_mod_self, hmsb, msb_leBytes N u hN,
        ← scast_mod_self (8 * N) u, scast_eq_of_lt hmlt]
      by_cases hcase : u % 2 ^ (8 * N) < 2 ^ (8 * N - 1)
      · rw [if_pos hcase]
        omega
      · rw [if_neg hcase]
        omega

/-- C7 counterexample: on a big-endian host the read-back of the stored byte
0xFF does not equal the twos-complement interpretation of the stored bytes
(-1): it has no defined result at all, since get_value writes its carrier
through the mis-built reverse iterator. -/
theorem claim_C7_counterexample :
    ¬ (get_value .big true 4 32 1 .little [255] =
      some (scast (8 * 1) (fromLeBytes (leView .little [255])))) := by
  decide

theorem claim_C7_witness :
    get_value .little true 4 32 1 .little [255] =
      some (scast (8 * 1) (fromLeBytes (leView .little [255]))) ∧
      (scast (8 * 1) (fromLeBytes (leView .little [255])) < 0 ↔
        data_msb .little [255] &&& 128 ≠ 0) :=
  claim_C7 4 32 1 .little (-1) [255] (by decide) (by decide) (by decide)
    (by decide)

/-- C8: as amended: on a little-endian host, default construction passes
Int value = {} = 0 to assign_value; the resulting buffer is N zero bytes for
every Int, N and byte order, and it reads back as 0.  On a big-endian host
even the default constructor copies its source bytes from out of bounds, so
neither the zero buffer nor the zero read-back is guaranteed. -/
theorem claim_C8 (signed : Bool) (size pw N : Nat) (order : Endian)
    (_hN : 0 < N) (hNs : N ≤ size) :
    mk .little signed size pw N order 0 = some (List.replicate N 0) ∧
      (mk .little signed size pw N order 0).bind
          (get_value .little signed size pw N order) =
        some 0 := by
  have hpwpos : (0 : Int) < (2 : Int) ^ (pw - 1) := by positivity
  have henc : encodeInt signed (8 * size) pw 0 = some (ucast (8 * size) 0) :=
    encodeInt_defined (by omega)
  have hu0 : ucast (8 * size) 0 = 0 := by
    unfold ucast
    simp
  have hmk : mk .little signed size pw N order 0 = some (List.replicate N 0) := by
    rw [mk_eq signed size pw N order 0 hNs, henc, hu0]
    simp only [Option.map_some']
    rw [leBytes_zero, leView_replicate]
  refine ⟨hmk, ?_⟩
  rw [hmk]
  simp only [Option.some_bind]
  have hrep : (List.replicate N 0 : List Nat) = leView order (leBytes N 0) := by
    rw [leBytes_zero, leView_replicate]
  rw [hrep]
  cases signed with
  | false =>
    rw [get_value_unsigned size pw N order 0]
    simp
  | true =>
    have hmsb0 : data_msb order (leView order (leBytes N 0)) = 0 := by
      unfold data_msb
      rw [leView_leView]
      exact getLastD_leBytes_zero N
    rw [get_value_true_eq, leView_leView, leBytes_take N N 0 le_rfl,
      if_neg (fun hcon => hcon.2 (by rw [hmsb0]; simp)), carrier_zero,
      Nat.zero_mod, from_twos_complement_zero]

/-- C8 counterexample: on a big-endian host the default constructor copies its
N source bytes from below the scalar (out-of-bounds undefined behaviour), so a
buffer of N zero bytes is not a defined outcome of default construction. -/
theorem claim_C8_counterexample :
    ¬ (mk .big true 4 32 3 .big 0 = some (List.replicate 3 0)) := by
  decide

theorem claim_C8_witness :
    mk .little true 4 32 3 .big 0 = some (List.replicate 3 0) ∧
      (mk .little true 4 32 3 .big 0).bind
          (get_value .little true 4 32 3 .big) = some 0 :=
  claim_C8 true 4 32 3 .big (by decide) (by decide)

/-- C9: as amended: on a little-endian host, assign_value writes all N bytes
of the buffer (copy_n with count data_.size()), so the state after assigning
`v` is independent of the prior buffer contents: assigning the same value to
two instances with arbitrary prior states leaves identical buffers.  On a
big-endian host the copy reads from out of bounds and no defined final state
exists at all. -/
theorem claim_C9 (signed : Bool) (size pw N : Nat) (order : Endian) (v : Int)
    (old1 old2 : List Nat) (h1 : old1.length = N) (h2 : old2.length = N) :
    assign_value .little signed size pw N order old1 v =
      assign_value .little signed size pw N order old2 v := by
  unfold assign_value
  cases h : encodeInt signed (8 * size) pw v with
  | none => rfl
  | some u =>
    simp only [Option.some_bind, le_iter_reads, Option.map_some']
    have hd1 : (leView order old1).drop N = [] :=
      List.drop_eq_nil_of_le (by rw [leView_length, h1])
    have hd2 : (leView order old2).drop N = [] :=
      List.drop_eq_nil_of_le (by rw [leView_length, h2])
    rw [hd1, hd2]

/-- C9 counterexample: on a big-endian host assign_value reads its N source
bytes through the mis-built reverse iterator (out-of-bounds undefined
behaviour), so assignment does not deliver any defined, prior-state-independent
buffer: there is no defined resulting buffer at all. -/
theorem claim_C9_counterexample :
    assign_value .big true 4 32 3 .little [1, 2, 3] 5 = none ∧
      assign_value .big true 4 32 3 .little [7, 8, 9] 5 = none := by
  decide

theorem claim_C9_witness :
    assign_value .little true 4 32 3 .little [1, 2, 3] 5 =
      assign_value .little true 4 32 3 .little [7, 8, 9] 5 :=
  claim_C9 true 4 32 3 .little 5 [1, 2, 3] [7, 8, 9] (by decide) (by decide)

/-- C10: as amended: on a little-endian host, whenever value() or
operator Int() returns a defined result, the buffer after the call equals the
buffer before it, and bytes() never touches the buffer.  On a big-endian host
value() and operator Int() write through the mis-built reverse iterator
(out-of-bounds undefined behaviour), so no post-call state is defined. -/
theorem claim_C10 (signed : Bool) (size pw N : Nat) (order : Endian)
    (data : List Nat) (r : Int) (s : List Nat) (_hN : 0 < N) :
    (value .little signed size pw N order data = some (r, s) → s = data) ∧
      (op_Int .little signed size pw N order data = some (r, s) → s = data) ∧
      (bytes data).2 = data := by
  refine ⟨?_, ?_, rfl⟩
  · intro h
    simp only [value] at h
    cases hg : get_value .little signed size pw N order data with
    | none =>
      rw [hg] at h
      exact absurd h (by simp)
    | some q =>
      rw [hg] at h
      simp only [Option.map_some'] at h
      exact (congrArg Prod.snd (Option.some.inj h)).symm
  · intro h
    simp only [op_Int] at h
    cases hg : get_value .little signed size pw N order data with
    | none =>
      rw [hg] at h
      exact absurd h (by simp)
    | some q =>
      rw [hg] at h
      simp only [Option.map_some'] at h
      exact (congrArg Prod.snd (Option.some.inj h)).symm

/-- C10 counterexample: on a big-endian host the observer calls have no
defined outcome at all (the internal copy_n writes the bytes below its local
carrier), so the buffer-preservation guarantee is not delivered by the
program there. -/
theorem claim_C10_counterexample :
    value .big true 4 32 1 .little [255] = none ∧
      op_Int .big true 4 32 1 .little [255] = none := by
  decide

theorem claim_C10_witness :
    (value .little true 4 32 1 .little [255] = some (-1, [255]) →
      ([255] : List Nat) = [255]) ∧
      (op_Int .little true 4 32 1 .little [255] = some (-1, [255]) →
        ([255] : List Nat) = [255]) ∧
      (bytes [255]).2 = [255] :=
  claim_C10 true 4 32 1 .little [255] (-1) [255] (by decide)

end NByteInt
